import Mathlib

/-!
Shallow embedding of the DabirJalase meeting-capture core: the session
entity model and its operations (python_services/sessions.py), the
deterministic voice-activity detector (python_services/vad/simple_vad.py),
the export manifest model (python_services/storage/manifests.py), the
file-backed persistence helpers (python_services/storage/persistence.py)
and the audio-append API handler (python_services/api/server.py).

Modelling conventions: Python floats carry only exact sample values here
and are embedded as rationals; Python ints as Int (lengths as Nat);
datetimes as Int instants (seconds, naive timestamps already normalised
to UTC, matching how the code compares them); Python dicts as association
lists manipulated only through dictInsert / dictGet / dictRemove, which
reproduce dict assignment, d.get and d.pop semantics; raised exceptions
as Except values.
-/

namespace DabirJalase

/-- One diarized utterance (diarization_service.py, dataclass
DiarizedSegment). The Python fields start and end are Lean keywords and
are spelled seg_start and seg_end. -/
structure DiarizedSegment where
  speaker : String
  text : String
  seg_start : ℚ := 0
  seg_end : ℚ := 0
  confidence : ℚ := 1
deriving Repr, DecidableEq

/-- Summary value (summarization/summarizer.py, dataclass Summary). -/
structure Summary where
  bullet_points : List String
  highlight : String
  action_items : Option (List String) := none
  decisions : Option (List String) := none
  faithfulness_score : ℚ := 1
deriving Repr, DecidableEq

/-- One persisted segment row (storage/manifests.py, dataclass
SegmentRecord). -/
structure SegmentRecord where
  speaker : String
  text : String
  speaker_label : Option String := none
deriving Repr, DecidableEq

/-- Serializable snapshot of a session (storage/manifests.py, dataclass
SessionExport); title and agenda default to None and [] exactly as the
dataclass declares. -/
structure SessionExport where
  session_id : String
  created_at : Int
  language : String
  segments : List SegmentRecord
  summary : Summary
  title : Option String := none
  agenda : List String := []
deriving Repr, DecidableEq

/-- Python dict assignment d[k] = v on an association list: replace the
value in place when the key is present, append the pair otherwise. -/
def dictInsert {α : Type} (m : List (String × α)) (k : String) (v : α) :
    List (String × α) :=
  match m with
  | [] => [(k, v)]
  | (k₀, v₀) :: rest =>
    if k₀ = k then (k, v) :: rest else (k₀, v₀) :: dictInsert rest k v

/-- Python dict read d.get(k): the value stored at k, if any. -/
def dictGet {α : Type} (m : List (String × α)) (k : String) : Option α :=
  match m with
  | [] => none
  | (k₀, v₀) :: rest => if k₀ = k then some v₀ else dictGet rest k

/-- Python dict removal d.pop(k, None): drop the entry at k when present. -/
def dictRemove {α : Type} (m : List (String × α)) (k : String) :
    List (String × α) :=
  m.filter (fun p => decide (p.1 ≠ k))

/-- Mutable meeting aggregate (sessions.py, dataclass Session). -/
structure Session where
  session_id : String
  language : String := "fa"
  created_at : Int := 0
  title : Option String := none
  agenda : List String := []
  segments : List DiarizedSegment := []
  speaker_labels : List (String × String) := []
  audio_buffer : List ℚ := []
deriving Repr, DecidableEq

/-- Session construction with the dataclass defaults; created_at is the
ambient clock value at creation time. -/
def Session.create (session_id : String) (language : String) (now : Int) :
    Session :=
  { session_id := session_id, language := language, created_at := now }

/-- sessions.py Session.update_metadata: a given title is stripped and a
blank result unsets it; a given agenda is stripped entrywise with blank
entries dropped. -/
def Session.update_metadata (s : Session) (title : Option String)
    (agenda : Option (List String)) : Session :=
  let s₁ :=
    match title with
    | some t => { s with title := if t.trim = "" then none else some t.trim }
    | none => s
  match agenda with
  | some items =>
    { s₁ with agenda := (items.map String.trim).filter (fun i => decide (i ≠ "")) }
  | none => s₁

/-- sessions.py Session.append_segments: extend the timeline and report the
speakers that had no label entry at call time. -/
def Session.append_segments (s : Session) (new_segments : List DiarizedSegment) :
    Session × List String :=
  let new_speakers :=
    (new_segments.filter
      (fun seg => (dictGet s.speaker_labels seg.speaker).isNone)).map (·.speaker)
  ({ s with segments := s.segments ++ new_segments }, new_speakers)

/-- sessions.py Session.label_speaker: upsert a display name. -/
def Session.label_speaker (s : Session) (speaker_id display_name : String) :
    Session :=
  { s with speaker_labels := dictInsert s.speaker_labels speaker_id display_name }

/-- sessions.py Session.forget_speaker: drop the label entry, rewrite every
segment of that speaker to a fresh DiarizedSegment(speaker, redaction_text)
and return how many segments were rewritten. -/
def Session.forget_speaker (s : Session) (speaker_id redaction_text : String) :
    Session × Nat :=
  let labels := dictRemove s.speaker_labels speaker_id
  let updated := s.segments.map (fun seg =>
    if seg.speaker = speaker_id then
      { speaker := seg.speaker, text := redaction_text }
    else seg)
  let scrubbed := s.segments.countP (fun seg => decide (seg.speaker = speaker_id))
  ({ s with speaker_labels := labels, segments := updated }, scrubbed)

/-- sessions.py Session.summary: summarize the space-joined segment texts.
The summarizer collaborator is an opaque function. -/
def Session.summary (s : Session) (summarizer : String → Summary) : Summary :=
  summarizer (String.intercalate " " (s.segments.map (·.text)))

/-- sessions.py Session.append_audio: extend the buffer, then, when a
positive trim_to is given and the buffer overflows it, drop the overflow
from the front; returns the number of samples given. -/
def Session.append_audio (s : Session) (samples : List ℚ)
    (trim_to : Option Int) : Session × Nat :=
  let buf := s.audio_buffer ++ samples
  let buf₂ :=
    match trim_to with
    | some t =>
      if 0 < t then
        let overflow : Int := (buf.length : Int) - t
        if 0 < overflow then buf.drop overflow.toNat else buf
      else buf
    | none => buf
  ({ s with audio_buffer := buf₂ }, samples.length)

/-- sessions.py Session.clear_audio. -/
def Session.clear_audio (s : Session) : Session :=
  { s with audio_buffer := [] }

/-- sessions.py Session.export (spelled exportSession because export is a
Lean keyword): the point-in-time manifest, with each segment row carrying
the label currently stored for its speaker. -/
def Session.exportSession (s : Session) (summarizer : String → Summary) :
    SessionExport :=
  { session_id := s.session_id
    created_at := s.created_at
    language := s.language
    title := s.title
    agenda := s.agenda
    segments := s.segments.map (fun seg =>
      { speaker := seg.speaker
        speaker_label := dictGet s.speaker_labels seg.speaker
        text := seg.text })
    summary := s.summary summarizer }

/-- One step of the dict comprehension in SessionStore.restore: keep the
row's speaker → label binding only when speaker_label is truthy (neither
None nor the empty string). -/
def restoreLabelStep (m : List (String × String)) (seg : SegmentRecord) :
    List (String × String) :=
  match seg.speaker_label with
  | some label => if label = "" then m else dictInsert m seg.speaker label
  | none => m

/-- The dict comprehension in SessionStore.restore: speaker → label for
every export row whose speaker_label is truthy. -/
def buildRestoredLabels (segments : List SegmentRecord) :
    List (String × String) :=
  segments.foldl restoreLabelStep []

/-- sessions.py SessionStore.restore, the hydrated session it builds: the
manifest metadata and segments, labels rebuilt from truthy speaker_label
rows and an empty audio buffer. -/
def restoreSession (e : SessionExport) : Session :=
  { session_id := e.session_id
    language := e.language
    created_at := e.created_at
    title := e.title
    agenda := e.agenda
    segments := e.segments.map (fun seg =>
      { speaker := seg.speaker, text := seg.text })
    speaker_labels := buildRestoredLabels e.segments
    audio_buffer := [] }

/-- The registry a SessionStore owns: session_id → Session. -/
abbrev Store := List (String × Session)

/-- sessions.py SessionStore.restore: hydrate and register the session. -/
def SessionStore.restore (store : Store) (e : SessionExport) :
    Store × Session :=
  let session := restoreSession e
  (dictInsert store session.session_id session, session)

/-- vad/simple_vad.py, dataclass SpeechSpan: inclusive index range. -/
structure SpeechSpan where
  start_index : Nat
  end_index : Nat
deriving Repr, DecidableEq

/-- The loop of detect_speech over the activity bitmap of the samples:
index, the pending run start (None outside a run) and the running active
count, exactly as simple_vad.py tracks them. -/
def detectLoop (active : Nat → Bool) (n min_run : Nat) :
    Nat → Option Nat → Nat → List SpeechSpan
  | i, start, run_length =>
    if h : i < n then
      if active i then
        detectLoop active n min_run (i + 1) (some (start.getD i)) (run_length + 1)
      else
        (match start with
         | some st => if min_run ≤ run_length then [⟨st, i - 1⟩] else []
         | none => []) ++ detectLoop active n min_run (i + 1) none 0
    else
      match start with
      | some st => if min_run ≤ run_length then [⟨st, n - 1⟩] else []
      | none => []
termination_by i _ _ => n - i

/-- vad/simple_vad.py detect_speech: a sample is active iff its absolute
value reaches the threshold; maximal active runs of length at least
min_run become spans. -/
def detect_speech (samples : List ℚ) (threshold : ℚ) (min_run : Nat) :
    List SpeechSpan :=
  detectLoop (fun i => decide (threshold ≤ |samples.getD i 0|))
    samples.length min_run 0 none 0

/-- Specification side of the VAD proof: the last index of the maximal
active run through index i — extend while the next index is in range and
active. -/
def runEnd (active : Nat → Bool) (n : Nat) : Nat → Nat
  | i =>
    if h : i + 1 < n then
      (if active (i + 1) then runEnd active n (i + 1) else i)
    else i
termination_by i => n - i

theorem runEnd_stop {active : Nat → Bool} {n i : Nat} (h : ¬ i + 1 < n) :
    runEnd active n i = i := by
  rw [runEnd]
  simp [h]

theorem runEnd_cont {active : Nat → Bool} {n i : Nat} (h : i + 1 < n)
    (ha : active (i + 1)) : runEnd active n i = runEnd active n (i + 1) := by
  rw [runEnd]
  simp [h, ha]

theorem runEnd_break {active : Nat → Bool} {n i : Nat} (h : i + 1 < n)
    (ha : ¬ active (i + 1)) : runEnd active n i = i := by
  rw [runEnd]
  simp [h, ha]

theorem runEnd_ge (active : Nat → Bool) (n : Nat) :
    ∀ i, i ≤ runEnd active n i := by
  have key : ∀ d i, n - i ≤ d → i ≤ runEnd active n i := by
    intro d
    induction d with
    | zero =>
      intro i hd
      rw [runEnd_stop (by omega)]
    | succ d ih =>
      intro i hd
      by_cases h : i + 1 < n
      · by_cases ha : active (i + 1)
        · rw [runEnd_cont h ha]
          have := ih (i + 1) (by omega)
          omega
        · rw [runEnd_break h ha]
      · rw [runEnd_stop h]
  intro i
  exact key (n - i) i le_rfl

theorem runsFrom_dec (active : Nat → Bool) (n i : Nat) (h : i < n) :
    n - (runEnd active n i + 1) < n - i := by
  have := runEnd_ge active n i
  omega

/-- Specification side of the VAD proof: the maximal active runs of the
index range [i, n), in order. -/
def runsFrom (active : Nat → Bool) (n : Nat) : Nat → List SpeechSpan
  | i =>
    if _h : i < n then
      if active i then
        ⟨i, runEnd active n i⟩ :: runsFrom active n (runEnd active n i + 1)
      else runsFrom active n (i + 1)
    else []
termination_by i => n - i
decreasing_by
  · exact runsFrom_dec active n _ _h
  · omega

/-- Specification side of the VAD proof: keep the spans of length at
least min_run. -/
def keepLong (min_run : Nat) (spans : List SpeechSpan) : List SpeechSpan :=
  spans.filter (fun sp => decide (min_run ≤ sp.end_index + 1 - sp.start_index))

/-- [s, e] is a maximal run of active samples inside [0, n): nonempty, in
range, active throughout, and inextensible on both sides. -/
def IsMaxRun (active : Nat → Bool) (n s e : Nat) : Prop :=
  s ≤ e ∧ e < n ∧ (∀ j, s ≤ j → j ≤ e → active j = true) ∧
  (s = 0 ∨ active (s - 1) = false) ∧ (e + 1 = n ∨ active (e + 1) = false)

/-- sessions.py SessionStore.process_audio_buffer. The STT and diarization
collaborators are opaque, duck-typed callables: stt takes the synthetic
transcript text and the session language, its result of arbitrary type α
is fed to the diarizer. When VAD finds no spans the call returns at once;
otherwise the diarized units are appended as fresh
DiarizedSegment(speaker, text) rows and the buffer is cleared only when
clear_buffer asks for it. A missing session id raises KeyError. -/
def SessionStore.process_audio_buffer {α : Type} (store : Store)
    (session_id : String) (stt : String → String → α)
    (diarize : α → List DiarizedSegment) (threshold : ℚ) (min_run : Nat)
    (transcript_hint : String) (clear_buffer : Bool) :
    Except String (Store × Session × List SpeechSpan × List String) :=
  match dictGet store session_id with
  | none => .error ("Unknown session " ++ session_id)
  | some session =>
    let spans := detect_speech session.audio_buffer threshold min_run
    if spans.isEmpty then .ok (store, session, spans, [])
    else
      let transcript_text :=
        if transcript_hint.trim = "" then "buffered audio" else transcript_hint.trim
      let span_descriptions := spans.map (fun span =>
        "buffer " ++ toString span.start_index ++ "-" ++ toString span.end_index)
      let transcript :=
        stt (transcript_text ++ ": " ++ String.intercalate "; " span_descriptions)
          session.language
      let diarized := diarize transcript
      let manifest_segments := diarized.map (fun d =>
        { speaker := d.speaker, text := d.text : DiarizedSegment })
      let appended := session.append_segments manifest_segments
      let session₂ := if clear_buffer then appended.1.clear_audio else appended.1
      .ok (dictInsert store session_id session₂, session₂, spans, appended.2)

/-- api/server.py error responses: 400 Bad Request (InvalidArgument) and
404 Not Found. -/
inductive ApiError where
  | badRequest (detail : String)
  | notFound (detail : String)
deriving Repr, DecidableEq

/-- api/server.py append_session_audio handler: reject trim_to < 1, then
an empty sample list, then look the session up; only then append. The
returned pair is (response or error, the store after the call); the
response carries the added count and the resulting buffer length. -/
def append_session_audio (store : Store) (session_id : String)
    (samples : List ℚ) (trim_to : Option Int) :
    Except ApiError (Nat × Nat) × Store :=
  if (match trim_to with | some t => decide (t < 1) | none => false) then
    (.error (.badRequest "trim_to must be >= 1 when provided"), store)
  else if samples.isEmpty then
    (.error (.badRequest "samples are required"), store)
  else
    match dictGet store session_id with
    | none => (.error (.notFound ("Unknown session " ++ session_id)), store)
    | some session =>
      let appended := session.append_audio samples trim_to
      (.ok (appended.2, appended.1.audio_buffer.length),
       dictInsert store session_id appended.1)

/-- The summary object of one persisted JSON document (the "summary" key
save_export writes: highlight and bullet_points only). -/
structure PayloadSummary where
  highlight : String
  bullet_points : List String
deriving Repr, DecidableEq

/-- One persisted JSON document exactly as storage/persistence.py
save_export writes it: session_id, created_at, language, segments and
summary — and nothing else. -/
structure StoredPayload where
  session_id : String
  created_at : Int
  language : String
  segments : List SegmentRecord
  summary : PayloadSummary
deriving Repr, DecidableEq

/-- The exports/ directory: file stem → parsed content, where none stands
for a file whose JSON or created_at fails to parse. -/
abbrev ExportDir := List (String × Option StoredPayload)

/-- storage/persistence.py save_export: write (overwriting) the manifest's
JSON document under its session_id. -/
def save_export (e : SessionExport) (dir : ExportDir) : ExportDir :=
  dictInsert dir e.session_id (some
    { session_id := e.session_id
      created_at := e.created_at
      language := e.language
      segments := e.segments.map (fun seg =>
        { speaker := seg.speaker
          text := seg.text
          speaker_label := seg.speaker_label })
      summary := { highlight := e.summary.highlight
                   bullet_points := e.summary.bullet_points } })

/-- load_export failure modes: FileNotFoundError, or a JSON decode error
on a corrupt file. -/
inductive LoadError where
  | notFound (detail : String)
  | malformed
deriving Repr, DecidableEq

/-- storage/persistence.py load_export: rebuild a SessionExport from the
stored document. The constructor call passes session_id, created_at,
language, segments and summary only, so title and agenda take the
dataclass defaults. -/
def load_export (session_id : String) (dir : ExportDir) :
    Except LoadError SessionExport :=
  match dictGet dir session_id with
  | none => .error (.notFound ("No export stored for session " ++ session_id))
  | some none => .error .malformed
  | some (some payload) =>
    .ok { session_id := payload.session_id
          created_at := payload.created_at
          language := payload.language
          segments := payload.segments.map (fun seg =>
            { speaker := seg.speaker
              text := seg.text
              speaker_label := seg.speaker_label })
          summary := { highlight := payload.summary.highlight
                       bullet_points := payload.summary.bullet_points } }

/-- Insertion step of Python sorted() on strings. -/
def insertSorted (x : String) : List String → List String
  | [] => [x]
  | y :: ys => if x ≤ y then x :: y :: ys else y :: insertSorted x ys

/-- Python sorted() on strings (ascending lexicographic). -/
def sortStrings : List String → List String
  | [] => []
  | x :: xs => insertSorted x (sortStrings xs)

/-- The per-file test of prune_exports: a file qualifies for deletion iff
it parses and its created_at lies strictly before the cutoff; malformed
files are skipped. -/
def isTooOld (cutoff : Int) (entry : String × Option StoredPayload) : Bool :=
  match entry.2 with
  | some payload => decide (payload.created_at < cutoff)
  | none => false

/-- storage/persistence.py prune_exports: the cutoff is now minus
timedelta(days = max_age_days), i.e. max_age_days * 86400 seconds;
qualifying files are deleted and their stems returned sorted. -/
def prune_exports (dir : ExportDir) (max_age_days : Int) (now : Int) :
    List String × ExportDir :=
  (sortStrings
    ((dir.filter (isTooOld (now - max_age_days * 86400))).map Prod.fst),
   dir.filter (fun entry => ! isTooOld (now - max_age_days * 86400) entry))

/-- One mutating operation on a live session, as dispatched by
SessionStore. process_buffer carries the diarized units the collaborators
would return (they are arbitrary, duck-typed callables); restore_from
replaces the session by the hydration of a manifest. -/
inductive SessionOp where
  | append_segments (segs : List DiarizedSegment)
  | label_speaker (id name : String)
  | forget_speaker (id text : String)
  | append_audio (samples : List ℚ) (trim_to : Option Int)
  | update_metadata (title : Option String) (agenda : Option (List String))
  | process_buffer (threshold : ℚ) (min_run : Nat)
      (diarized : List DiarizedSegment) (clear : Bool)
  | restore_from (e : SessionExport)

/-- The effect of one SessionOp on the session it targets, mirroring the
corresponding sessions.py code path. -/
def applyOp (s : Session) : SessionOp → Session
  | .append_segments segs => (s.append_segments segs).1
  | .label_speaker id name => s.label_speaker id name
  | .forget_speaker id text => (s.forget_speaker id text).1
  | .append_audio samples trim_to => (s.append_audio samples trim_to).1
  | .update_metadata title agenda => s.update_metadata title agenda
  | .process_buffer threshold min_run diarized clear =>
    let spans := detect_speech s.audio_buffer threshold min_run
    if spans.isEmpty then s
    else
      let appended := s.append_segments (diarized.map (fun d =>
        { speaker := d.speaker, text := d.text : DiarizedSegment }))
      if clear then appended.1.clear_audio else appended.1
  | .restore_from e => restoreSession e

/-- Sessions reachable from creation by any sequence of operations. -/
inductive ReachableAny : Session → Prop where
  | created (sid lang : String) (now : Int) :
      ReachableAny (Session.create sid lang now)
  | step (s : Session) (op : SessionOp) :
      ReachableAny s → ReachableAny (applyOp s op)

/-- The speaker-label invariant of spec §3: every key of speaker_labels is
a speaker id appearing in segments. -/
def labelsConsistent (s : Session) : Prop :=
  ∀ p ∈ s.speaker_labels, p.1 ∈ s.segments.map (·.speaker)

/-- The guard under which the invariant survives: label_speaker is only
applied to a speaker already present in the timeline; every other
operation is unrestricted. -/
def opGuard (s : Session) : SessionOp → Prop
  | .label_speaker id _ => id ∈ s.segments.map (·.speaker)
  | _ => True

/-- Sessions reachable when every label_speaker call satisfies opGuard. -/
inductive ReachableGuarded : Session → Prop where
  | created (sid lang : String) (now : Int) :
      ReachableGuarded (Session.create sid lang now)
  | step (s : Session) (op : SessionOp) :
      ReachableGuarded s → opGuard s op → ReachableGuarded (applyOp s op)

/-- Decidability of the speaker-label invariant on concrete sessions. -/
instance (s : Session) : Decidable (labelsConsistent s) :=
  inferInstanceAs
    (Decidable (∀ p ∈ s.speaker_labels,
      p.1 ∈ s.segments.map (fun seg : DiarizedSegment => seg.speaker)))

/-- Decidability of the label guard on concrete sessions and operations. -/
instance (s : Session) (op : SessionOp) : Decidable (opGuard s op) :=
  match op with
  | .append_segments _ => inferInstanceAs (Decidable True)
  | .label_speaker id _ =>
    inferInstanceAs
      (Decidable (id ∈ s.segments.map (fun seg : DiarizedSegment => seg.speaker)))
  | .forget_speaker _ _ => inferInstanceAs (Decidable True)
  | .append_audio _ _ => inferInstanceAs (Decidable True)
  | .update_metadata _ _ => inferInstanceAs (Decidable True)
  | .process_buffer _ _ _ _ => inferInstanceAs (Decidable True)
  | .restore_from _ => inferInstanceAs (Decidable True)

/-- A session exhibiting the C2 failure modes: a label for a speaker with
no segment (Y → "Ali"), an empty-string label for X, and a segment of X
with a non-default start time. -/
def cexSession : Session :=
  { session_id := "s", language := "fa", created_at := 0
    segments := [{ speaker := "X", text := "hi", seg_start := 1 }]
    speaker_labels := [("X", ""), ("Y", "Ali")]
    audio_buffer := [1] }

/-- A deterministic summarizer collaborator for concrete instances. -/
def constSummarizer : String → Summary :=
  fun _ => { bullet_points := ["b"], highlight := "h" }

/-- A concrete session with one labelled segment, a title, an agenda and
a non-empty audio buffer, for the C2 round-trip witness. -/
def roundtripSample : Session :=
  { session_id := "w", language := "fa", created_at := 5
    title := some "T", agenda := ["a"]
    segments := [{ speaker := "X", text := "hi" }]
    speaker_labels := [("X", "Ali")]
    audio_buffer := [1] }

/-- A one-session store with an empty buffer, and deterministic
collaborators, for the C8 witness. -/
def wStore : Store := [("s1", { session_id := "s1" })]

def wStt : String → String → String := fun t _ => t

def wDiarize : String → List DiarizedSegment := fun _ => []

/-! ### Association-list (Python dict) lemmas -/

theorem dictGet_dictInsert {α : Type} (m : List (String × α)) (k k' : String)
    (v : α) :
    dictGet (dictInsert m k v) k' = if k = k' then some v else dictGet m k' := by
  induction m with
  | nil => simp [dictInsert, dictGet]
  | cons p rest ih =>
    obtain ⟨k₀, v₀⟩ := p
    by_cases h : k₀ = k
    · subst h
      by_cases h' : k₀ = k' <;> simp [dictInsert, dictGet, h']
    · by_cases h₂ : k₀ = k'
      · subst h₂
        have hne : k ≠ k₀ := fun e => h e.symm
        simp [dictInsert, dictGet, h, hne]
      · simp [dictInsert, dictGet, h, h₂, ih]

theorem dictGet_eq_none_forall {α : Type} {m : List (String × α)} {k : String}
    (h : dictGet m k = none) : ∀ p ∈ m, p.1 ≠ k := by
  induction m with
  | nil => intro p hp; cases hp
  | cons q rest ih =>
    intro p hp
    obtain ⟨k₀, v₀⟩ := q
    by_cases hk : k₀ = k
    · subst hk; simp [dictGet] at h
    · rcases List.mem_cons.mp hp with rfl | hp
      · exact hk
      · exact ih (by simpa [dictGet, hk] using h) p hp

theorem dictGet_mem {α : Type} {m : List (String × α)} {k : String} {v : α}
    (h : dictGet m k = some v) : (k, v) ∈ m := by
  induction m with
  | nil => simp [dictGet] at h
  | cons q rest ih =>
    obtain ⟨k₀, v₀⟩ := q
    by_cases hk : k₀ = k
    · subst hk
      simp [dictGet] at h
      simp [h]
    · exact List.mem_cons_of_mem _ (ih (by simpa [dictGet, hk] using h))

theorem dictGet_dictRemove_self {α : Type} (m : List (String × α)) (k : String) :
    dictGet (dictRemove m k) k = none := by
  induction m with
  | nil => rfl
  | cons q rest ih =>
    obtain ⟨k₀, v₀⟩ := q
    by_cases hk : k₀ = k
    · simpa [dictRemove, List.filter, hk] using ih
    · simpa [dictRemove, List.filter, hk, dictGet] using ih

theorem dictRemove_eq_self {α : Type} {m : List (String × α)} {k : String}
    (h : ∀ p ∈ m, p.1 ≠ k) : dictRemove m k = m := by
  induction m with
  | nil => rfl
  | cons q rest ih =>
    have hq : q.1 ≠ k := h q (by simp)
    have : dictRemove rest k = rest := ih (fun p hp => h p (by simp [hp]))
    simpa [dictRemove, List.filter, hq] using this

theorem mem_dictInsert {α : Type} {m : List (String × α)} {k : String} {v : α}
    {p : String × α} (h : p ∈ dictInsert m k v) : p = (k, v) ∨ p ∈ m := by
  induction m with
  | nil => simpa [dictInsert] using h
  | cons q rest ih =>
    obtain ⟨k₀, v₀⟩ := q
    by_cases hk : k₀ = k
    · simp only [dictInsert, if_pos hk] at h
      rcases List.mem_cons.mp h with rfl | h
      · exact Or.inl rfl
      · exact Or.inr (List.mem_cons_of_mem _ h)
    · simp only [dictInsert, if_neg hk] at h
      rcases List.mem_cons.mp h with rfl | h
      · exact Or.inr (List.mem_cons_self _ _)
      · rcases ih h with h' | h'
        · exact Or.inl h'
        · exact Or.inr (List.mem_cons_of_mem _ h')

/-! ### Small list lemmas -/

theorem map_eq_self_of_mem {α : Type} {l : List α} {f : α → α}
    (h : ∀ x ∈ l, f x = x) : l.map f = l := by
  induction l with
  | nil => rfl
  | cons a t ih =>
    simp only [List.map_cons, h a (by simp), List.cons.injEq, true_and]
    exact ih (fun x hx => h x (by simp [hx]))

theorem mem_insertSorted {x a : String} {l : List String} :
    a ∈ insertSorted x l ↔ a = x ∨ a ∈ l := by
  induction l with
  | nil => simp [insertSorted]
  | cons y ys ih =>
    by_cases hx : x ≤ y
    · simp [insertSorted, hx]
    · simp only [insertSorted, if_neg hx, List.mem_cons, ih]
      tauto

theorem mem_sortStrings {a : String} {l : List String} :
    a ∈ sortStrings l ↔ a ∈ l := by
  induction l with
  | nil => simp [sortStrings]
  | cons x xs ih => simp [sortStrings, mem_insertSorted, ih]

theorem filter_not_filter_self {α : Type} (p : α → Bool) (l : List α) :
    (l.filter (fun a => ! p a)).filter p = [] := by
  induction l with
  | nil => rfl
  | cons a t ih =>
    by_cases h : p a
    · simpa [List.filter, h] using ih
    · simpa [List.filter, h] using ih

theorem filter_not_twice {α : Type} (p : α → Bool) (l : List α) :
    (l.filter (fun a => ! p a)).filter (fun a => ! p a) =
      l.filter (fun a => ! p a) := by
  induction l with
  | nil => rfl
  | cons a t ih =>
    by_cases h : p a
    · simpa [List.filter, h] using ih
    · simpa [List.filter, h] using ih

/-! ### Claim theorems: redaction and audio buffer -/

/-- C4: forget_speaker leaves the timeline length unchanged, rewrites
every segment of the forgotten speaker to exactly
DiarizedSegment(speaker_id, redaction_text), keeps every other segment
as it was, removes the speaker's label entry, and returns the number of
segments that had that speaker before the call. -/
theorem forget_speaker_postcondition (s : Session)
    (speaker_id redaction_text : String) :
    (s.forget_speaker speaker_id redaction_text).1.segments.length =
      s.segments.length ∧
    (∀ i : Nat, ∀ seg, s.segments[i]? = some seg →
      (seg.speaker = speaker_id →
        (s.forget_speaker speaker_id redaction_text).1.segments[i]? =
          some { speaker := speaker_id, text := redaction_text }) ∧
      (seg.speaker ≠ speaker_id →
        (s.forget_speaker speaker_id redaction_text).1.segments[i]? =
          some seg)) ∧
    dictGet (s.forget_speaker speaker_id redaction_text).1.speaker_labels
      speaker_id = none ∧
    (s.forget_speaker speaker_id redaction_text).2 =
      (s.segments.filter (fun seg => decide (seg.speaker = speaker_id))).length := by
  refine ⟨by simp [Session.forget_speaker], ?_, ?_, ?_⟩
  · intro i seg hseg
    constructor
    · intro hsp
      simp only [Session.forget_speaker, List.getElem?_map, hseg, Option.map_some']
      simp [hsp]
    · intro hsp
      simp only [Session.forget_speaker, List.getElem?_map, hseg, Option.map_some']
      simp [hsp]
  · simpa [Session.forget_speaker] using
      dictGet_dictRemove_self s.speaker_labels speaker_id
  · simp [Session.forget_speaker, List.countP_eq_length_filter]

/-- C10: forgetting a speaker that has no label entry and appears in no
segment returns scrub count 0 and the session unchanged. -/
theorem forget_unknown_speaker_noop (s : Session)
    (speaker_id redaction_text : String)
    (hlabel : dictGet s.speaker_labels speaker_id = none)
    (hseg : ∀ seg ∈ s.segments, seg.speaker ≠ speaker_id) :
    s.forget_speaker speaker_id redaction_text = (s, 0) := by
  have h₁ : dictRemove s.speaker_labels speaker_id = s.speaker_labels :=
    dictRemove_eq_self (dictGet_eq_none_forall hlabel)
  have h₂ : s.segments.map (fun seg =>
      if seg.speaker = speaker_id then
        ({ speaker := seg.speaker, text := redaction_text } : DiarizedSegment)
      else seg) = s.segments :=
    map_eq_self_of_mem (fun seg hs => by simp [hseg seg hs])
  have h₃ : s.segments.countP (fun seg => decide (seg.speaker = speaker_id)) = 0 := by
    rw [List.countP_eq_length_filter]
    have : s.segments.filter (fun seg => decide (seg.speaker = speaker_id)) = [] :=
      List.filter_eq_nil_iff.mpr (fun seg hs => by simp [hseg seg hs])
    simp [this]
  simp [Session.forget_speaker, h₁, h₂, h₃]

/-- C10 witness: forgetting the unknown speaker X in a concrete session
with one segment by A and a label for A is a no-op returning 0. -/
theorem forget_unknown_speaker_noop_witness :
    dictGet (Session.mk "s" "fa" 0 none [] [⟨"A", "hi", 0, 0, 1⟩]
        [("A", "Ali")] []).speaker_labels "X" = none ∧
    (∀ seg ∈ (Session.mk "s" "fa" 0 none [] [⟨"A", "hi", 0, 0, 1⟩]
        [("A", "Ali")] []).segments, seg.speaker ≠ "X") ∧
    (Session.mk "s" "fa" 0 none [] [⟨"A", "hi", 0, 0, 1⟩]
        [("A", "Ali")] []).forget_speaker "X" "[redacted]" =
      (Session.mk "s" "fa" 0 none [] [⟨"A", "hi", 0, 0, 1⟩]
        [("A", "Ali")] [], 0) :=
  ⟨by decide, by decide,
    forget_unknown_speaker_noop _ "X" "[redacted]" (by decide) (by decide)⟩

/-- C7: appending k samples with no trim (or a non-positive trim_to)
extends the buffer by exactly those samples; with a positive trim_to = t
the resulting buffer is the suffix of the extended buffer holding its
min(t, L + k) most recent samples. -/
theorem append_audio_trim_law (s : Session) (samples : List ℚ) :
    (s.append_audio samples none).1.audio_buffer =
      s.audio_buffer ++ samples ∧
    (∀ t : Int, t ≤ 0 →
      (s.append_audio samples (some t)).1.audio_buffer =
        s.audio_buffer ++ samples) ∧
    (∀ t : Int, 0 < t →
      (s.append_audio samples (some t)).1.audio_buffer =
        (s.audio_buffer ++ samples).drop
          ((s.audio_buffer.length + samples.length) -
            min t.toNat (s.audio_buffer.length + samples.length)) ∧
      (s.append_audio samples (some t)).1.audio_buffer.length =
        min t.toNat (s.audio_buffer.length + samples.length)) := by
  refine ⟨by simp [Session.append_audio], ?_, ?_⟩
  · intro t ht
    have : ¬ 0 < t := by omega
    simp [Session.append_audio, this]
  · intro t ht
    set buf := s.audio_buffer ++ samples with hbuf
    have hlen : buf.length = s.audio_buffer.length + samples.length := by
      simp [hbuf]
    by_cases hover : 0 < (buf.length : Int) - t
    · have htoNat : ((buf.length : Int) - t).toNat = buf.length - t.toNat := by
        omega
      have hmin : min t.toNat buf.length = t.toNat := by omega
      constructor
      · simp only [Session.append_audio, if_pos ht, if_pos hover, ← hbuf]
        rw [htoNat, ← hlen, hmin]
      · simp only [Session.append_audio, if_pos ht, if_pos hover, ← hbuf]
        rw [htoNat, List.length_drop, ← hlen, hmin]
        omega
    · have hmin : min t.toNat buf.length = buf.length := by omega
      constructor
      · simp only [Session.append_audio, if_pos ht, if_neg hover, ← hbuf]
        rw [← hlen, hmin]
        simp
      · simp only [Session.append_audio, if_pos ht, if_neg hover, ← hbuf]
        rw [← hlen, hmin]

/-- C6: the audio-append API handler rejects any non-positive trim_to with
a 400 InvalidArgument before touching the store, whatever the samples or
the session id. -/
theorem append_audio_endpoint_rejects_invalid_trim (store : Store)
    (session_id : String) (samples : List ℚ) (t : Int) (ht : t ≤ 0) :
    append_session_audio store session_id samples (some t) =
      (.error (.badRequest "trim_to must be >= 1 when provided"), store) := by
  have h : t < 1 := by omega
  simp [append_session_audio, h]

/-- C6 witness: trim_to = 0 on a store holding one session with a
non-empty buffer is rejected and the store is returned unchanged. -/
theorem append_audio_endpoint_rejects_invalid_trim_witness :
    (0 : Int) ≤ 0 ∧
    append_session_audio
        [("s1", Session.mk "s1" "fa" 0 none [] [] [] [1, 2])] "s1" [3] (some 0) =
      (.error (.badRequest "trim_to must be >= 1 when provided"),
       [("s1", Session.mk "s1" "fa" 0 none [] [] [] [1, 2])]) :=
  ⟨by decide,
    append_audio_endpoint_rejects_invalid_trim _ "s1" [3] 0 (by decide)⟩

/-! ### Claim theorems: persistence -/

/-- C1 (code-bug evidence): saving a manifest that carries a title and an
agenda and loading it back preserves session_id, created_at, language,
segments and summary, but returns title = None and agenda = [] — the
persisted document has no title or agenda fields, so the round trip is
not lossless. -/
theorem save_load_export_drops_title_agenda :
    load_export "standup"
      (save_export
        { session_id := "standup", created_at := 1700000000, language := "fa"
          segments := [{ speaker := "spk1", text := "salam"
                         speaker_label := some "Host" }]
          summary := { bullet_points := ["p"], highlight := "h" }
          title := some "Weekly standup", agenda := ["opening"] } []) =
      .ok { session_id := "standup", created_at := 1700000000, language := "fa"
            segments := [{ speaker := "spk1", text := "salam"
                           speaker_label := some "Host" }]
            summary := { bullet_points := ["p"], highlight := "h" }
            title := none, agenda := [] } ∧
    (none : Option String) ≠ some "Weekly standup" ∧
    ([] : List String) ≠ ["opening"] :=
  ⟨rfl, by decide, by decide⟩

/-- C9: the first prune removes exactly the parsable manifests whose
created_at lies strictly before now minus max_age_days, and pruning the
resulting directory again with the same arguments removes nothing and
returns the empty list. -/
theorem prune_exports_idempotent (dir : ExportDir) (max_age_days now : Int) :
    prune_exports (prune_exports dir max_age_days now).2 max_age_days now =
      ([], (prune_exports dir max_age_days now).2) ∧
    (∀ sid payload, (sid, some payload) ∈ dir →
      payload.created_at < now - max_age_days * 86400 →
      sid ∈ (prune_exports dir max_age_days now).1) ∧
    (∀ sid ∈ (prune_exports dir max_age_days now).1,
      ∃ payload, (sid, some payload) ∈ dir ∧
        payload.created_at < now - max_age_days * 86400) ∧
    (∀ entry ∈ dir, isTooOld (now - max_age_days * 86400) entry = false →
      entry ∈ (prune_exports dir max_age_days now).2) := by
  refine ⟨?_, ?_, ?_, ?_⟩
  · simp only [prune_exports]
    rw [filter_not_filter_self, filter_not_twice]
    rfl
  · intro sid payload hmem hlt
    simp only [prune_exports, mem_sortStrings]
    exact List.mem_map.mpr ⟨(sid, some payload),
      List.mem_filter.mpr ⟨hmem, by simp [isTooOld, hlt]⟩, rfl⟩
  · intro sid hsid
    simp only [prune_exports, mem_sortStrings] at hsid
    obtain ⟨entry, hent, hfst⟩ := List.mem_map.mp hsid
    have hfil := List.mem_filter.mp hent
    obtain ⟨k, content⟩ := entry
    cases content with
    | none => simp [isTooOld] at hfil
    | some payload =>
      refine ⟨payload, ?_, ?_⟩
      · cases hfst
        exact hfil.1
      · have := hfil.2
        simpa [isTooOld] using this
  · intro entry hent hfalse
    exact List.mem_filter.mpr ⟨hent, by simp [hfalse]⟩

/-! ### Claim theorems: in-memory export / restore round trip -/

theorem buildLabels_go_untouched (k : String) :
    ∀ (segs : List SegmentRecord) (acc : List (String × String)),
      (∀ r ∈ segs, r.speaker = k →
        r.speaker_label = none ∨ r.speaker_label = some "") →
      dictGet (segs.foldl restoreLabelStep acc) k = dictGet acc k := by
  intro segs
  induction segs with
  | nil => intro acc _; rfl
  | cons r t ih =>
    intro acc hall
    rw [List.foldl_cons,
      ih _ (fun r' hr' => hall r' (List.mem_cons_of_mem _ hr'))]
    by_cases hsp : r.speaker = k
    · rcases hall r (List.mem_cons_self _ _) hsp with h | h
      · simp [restoreLabelStep, h]
      · simp [restoreLabelStep, h]
    · cases hlab : r.speaker_label with
      | none => simp [restoreLabelStep, hlab]
      | some label =>
        by_cases hl : label = ""
        · simp [restoreLabelStep, hlab, hl]
        · simp [restoreLabelStep, hlab, hl, dictGet_dictInsert, hsp]

theorem buildLabels_go_found (k l : String) (hl : l ≠ "") :
    ∀ (segs : List SegmentRecord) (acc : List (String × String)),
      k ∈ segs.map (·.speaker) →
      (∀ r ∈ segs, r.speaker = k → r.speaker_label = some l) →
      dictGet (segs.foldl restoreLabelStep acc) k = some l := by
  intro segs
  induction segs with
  | nil => intro acc h _; simp at h
  | cons r t ih =>
    intro acc hmem hall
    rw [List.foldl_cons]
    by_cases hkt : k ∈ t.map (·.speaker)
    · exact ih _ hkt (fun r' hr' => hall r' (List.mem_cons_of_mem _ hr'))
    · have hrk : r.speaker = k := by
        rcases (by simpa using hmem :
            k = r.speaker ∨ ∃ a ∈ t, a.speaker = k) with h | ⟨a, ha, hak⟩
        · exact h.symm
        · exact absurd (List.mem_map.mpr ⟨a, ha, hak⟩) hkt
      have hto : ∀ r' ∈ t, r'.speaker = k →
          r'.speaker_label = none ∨ r'.speaker_label = some "" := by
        intro r' hr' hsp
        exact absurd (List.mem_map.mpr ⟨r', hr', hsp⟩) hkt
      rw [buildLabels_go_untouched k t _ hto]
      have hstep : restoreLabelStep acc r = dictInsert acc k l := by
        simp [restoreLabelStep, hall r (List.mem_cons_self _ _) hrk, hl, hrk]
      rw [hstep, dictGet_dictInsert]
      simp

/-- C2 is false as stated: restoring the export of cexSession yields a
session whose speaker_labels lack the entry Y → "Ali" that cexSession has,
and whose segments differ from cexSession's. -/
theorem export_restore_not_identity_cex :
    dictGet cexSession.speaker_labels "Y" = some "Ali" ∧
    dictGet (SessionStore.restore []
        (cexSession.exportSession constSummarizer)).2.speaker_labels "Y" = none ∧
    (SessionStore.restore []
        (cexSession.exportSession constSummarizer)).2.segments ≠
      cexSession.segments :=
  ⟨rfl, rfl, by decide⟩

/-- C2 (amended): for a session whose speaker_labels keys all appear among
its segments' speakers, whose label values are non-empty, and whose
segments carry the dataclass-default timing fields, SessionStore.restore
of Session.export reproduces the segments, the speaker-label mapping
(extensionally), title, agenda, language and created_at, and leaves the
audio buffer empty. -/
theorem export_restore_roundtrip_amended (s : Session)
    (summarizer : String → Summary) (store : Store)
    (hkeys : ∀ p ∈ s.speaker_labels, p.1 ∈ s.segments.map (·.speaker))
    (hne : ∀ p ∈ s.speaker_labels, p.2 ≠ "")
    (hdef : ∀ seg ∈ s.segments,
      seg.seg_start = 0 ∧ seg.seg_end = 0 ∧ seg.confidence = 1) :
    (SessionStore.restore store (s.exportSession summarizer)).2.segments =
      s.segments ∧
    (∀ k, dictGet (SessionStore.restore store
        (s.exportSession summarizer)).2.speaker_labels k =
      dictGet s.speaker_labels k) ∧
    (SessionStore.restore store (s.exportSession summarizer)).2.title =
      s.title ∧
    (SessionStore.restore store (s.exportSession summarizer)).2.agenda =
      s.agenda ∧
    (SessionStore.restore store (s.exportSession summarizer)).2.language =
      s.language ∧
    (SessionStore.restore store (s.exportSession summarizer)).2.created_at =
      s.created_at ∧
    (SessionStore.restore store (s.exportSession summarizer)).2.audio_buffer =
      [] := by
  refine ⟨?_, ?_, rfl, rfl, rfl, rfl, rfl⟩
  · show (restoreSession (s.exportSession summarizer)).segments = s.segments
    simp only [restoreSession, Session.exportSession, List.map_map]
    exact map_eq_self_of_mem (fun seg hs => by
      obtain ⟨sp, tx, st, en, cf⟩ := seg
      obtain ⟨h1, h2, h3⟩ := hdef _ hs
      simp_all)
  · intro k
    show dictGet (restoreSession (s.exportSession summarizer)).speaker_labels k =
      dictGet s.speaker_labels k
    simp only [restoreSession, buildRestoredLabels]
    cases hk : dictGet s.speaker_labels k with
    | none =>
      rw [buildLabels_go_untouched k _ _ ?_]
      · rfl
      · intro r hr hsp
        simp only [Session.exportSession, List.mem_map] at hr
        obtain ⟨seg, _, rfl⟩ := hr
        simp only at hsp
        left
        simpa [hsp] using hk
    | some l =>
      have hmem : (k, l) ∈ s.speaker_labels := dictGet_mem hk
      have hlne : l ≠ "" := hne _ hmem
      have hkin : k ∈ s.segments.map (·.speaker) := hkeys _ hmem
      rw [buildLabels_go_found k l hlne _ _ ?_ ?_]
      · simp only [Session.exportSession, List.map_map]
        simpa using hkin
      · intro r hr hsp
        simp only [Session.exportSession, List.mem_map] at hr
        obtain ⟨seg, _, rfl⟩ := hr
        simp only at hsp ⊢
        simpa [hsp] using hk

theorem export_restore_roundtrip_amended_witness :
    (∀ p ∈ roundtripSample.speaker_labels,
      p.1 ∈ roundtripSample.segments.map (·.speaker)) ∧
    (∀ p ∈ roundtripSample.speaker_labels, p.2 ≠ "") ∧
    (∀ seg ∈ roundtripSample.segments,
      seg.seg_start = 0 ∧ seg.seg_end = 0 ∧ seg.confidence = 1) ∧
    ((SessionStore.restore []
        (roundtripSample.exportSession constSummarizer)).2.segments =
      roundtripSample.segments ∧
    (∀ k, dictGet (SessionStore.restore []
        (roundtripSample.exportSession constSummarizer)).2.speaker_labels k =
      dictGet roundtripSample.speaker_labels k) ∧
    (SessionStore.restore []
        (roundtripSample.exportSession constSummarizer)).2.title =
      roundtripSample.title ∧
    (SessionStore.restore []
        (roundtripSample.exportSession constSummarizer)).2.agenda =
      roundtripSample.agenda ∧
    (SessionStore.restore []
        (roundtripSample.exportSession constSummarizer)).2.language =
      roundtripSample.language ∧
    (SessionStore.restore []
        (roundtripSample.exportSession constSummarizer)).2.created_at =
      roundtripSample.created_at ∧
    (SessionStore.restore []
        (roundtripSample.exportSession constSummarizer)).2.audio_buffer =
      []) :=
  ⟨by decide, by decide, by decide,
    export_restore_roundtrip_amended roundtripSample constSummarizer []
      (by decide) (by decide) (by decide)⟩

/-! ### Claim theorems: buffer processing frame property -/

/-- C8: with any STT/diarization collaborators, process_audio_buffer on a
stored session returns immediately with empty spans, empty new_speakers
and a completely untouched store when VAD finds no spans; and whenever
clear_buffer is false, the session it returns still holds exactly the
audio buffer it had before the call. -/
theorem process_buffer_frame_property {α : Type} (store : Store)
    (session_id : String) (stt : String → String → α)
    (diarize : α → List DiarizedSegment) (threshold : ℚ) (min_run : Nat)
    (transcript_hint : String) (clear_buffer : Bool) (s : Session)
    (hs : dictGet store session_id = some s) :
    (detect_speech s.audio_buffer threshold min_run = [] →
      SessionStore.process_audio_buffer store session_id stt diarize
        threshold min_run transcript_hint clear_buffer =
        .ok (store, s, [], [])) ∧
    (clear_buffer = false →
      ∀ store' s' spans new_speakers,
        SessionStore.process_audio_buffer store session_id stt diarize
          threshold min_run transcript_hint clear_buffer =
          .ok (store', s', spans, new_speakers) →
        s'.audio_buffer = s.audio_buffer) := by
  constructor
  · intro hdet
    simp [SessionStore.process_audio_buffer, hs, hdet]
  · rintro rfl store' s' spans new_speakers hcall
    by_cases hdet : (detect_speech s.audio_buffer threshold min_run).isEmpty
    · simp only [SessionStore.process_audio_buffer, hs, if_pos hdet,
        Except.ok.injEq, Prod.mk.injEq] at hcall
      obtain ⟨-, hsess, -, -⟩ := hcall
      rw [← hsess]
    · simp only [SessionStore.process_audio_buffer, hs, if_neg hdet,
        Bool.false_eq_true, if_false, Except.ok.injEq, Prod.mk.injEq] at hcall
      obtain ⟨-, hsess, -, -⟩ := hcall
      rw [← hsess]
      simp [Session.append_segments]

theorem process_buffer_frame_property_witness :
    dictGet wStore "s1" = some { session_id := "s1" } ∧
    ((detect_speech ({ session_id := "s1" } : Session).audio_buffer
        (1 / 100) 3 = [] →
      SessionStore.process_audio_buffer wStore "s1" wStt wDiarize (1 / 100) 3
        "buffered audio" false =
        .ok (wStore, { session_id := "s1" }, [], [])) ∧
    (false = false →
      ∀ store' s' spans new_speakers,
        SessionStore.process_audio_buffer wStore "s1" wStt wDiarize (1 / 100) 3
          "buffered audio" false =
          .ok (store', s', spans, new_speakers) →
        s'.audio_buffer = ({ session_id := "s1" } : Session).audio_buffer)) :=
  ⟨rfl, process_buffer_frame_property wStore "s1" wStt wDiarize (1 / 100) 3
    "buffered audio" false { session_id := "s1" } rfl⟩

/-! ### Claim theorems: the speaker-label invariant -/

theorem mem_buildLabels_go {p : String × String} :
    ∀ (segs : List SegmentRecord) (acc : List (String × String)),
      p ∈ segs.foldl restoreLabelStep acc →
      p.1 ∈ segs.map (·.speaker) ∨ p ∈ acc := by
  intro segs
  induction segs with
  | nil => intro acc hp; exact Or.inr hp
  | cons r t ih =>
    intro acc hp
    rw [List.foldl_cons] at hp
    rcases ih _ hp with h | h
    · exact Or.inl (by simp [h])
    · cases hlab : r.speaker_label with
      | none =>
        simp only [restoreLabelStep, hlab] at h
        exact Or.inr h
      | some label =>
        simp only [restoreLabelStep, hlab] at h
        by_cases hl : label = ""
        · rw [if_pos hl] at h
          exact Or.inr h
        · rw [if_neg hl] at h
          rcases mem_dictInsert h with rfl | h'
          · exact Or.inl (by simp)
          · exact Or.inr h'

theorem labelsConsistent_step (s : Session) (op : SessionOp)
    (hs : labelsConsistent s) (hg : opGuard s op) :
    labelsConsistent (applyOp s op) := by
  cases op with
  | append_segments segs =>
    intro p hp
    have hmem := hs p (by simpa [applyOp, Session.append_segments] using hp)
    simp only [applyOp, Session.append_segments, List.map_append]
    exact List.mem_append_left _ hmem
  | label_speaker id name =>
    intro p hp
    simp only [applyOp, Session.label_speaker] at hp
    rcases mem_dictInsert hp with rfl | hp'
    · have hg' : id ∈ s.segments.map (·.speaker) := hg
      simpa [applyOp, Session.label_speaker] using hg'
    · simpa [applyOp, Session.label_speaker] using hs p hp'
  | forget_speaker id text =>
    intro p hp
    simp only [applyOp, Session.forget_speaker] at hp
    have hp' : p ∈ s.speaker_labels := List.mem_of_mem_filter hp
    rcases List.mem_map.mp (hs p hp') with ⟨seg, hseg, hsp⟩
    simp only [applyOp, Session.forget_speaker, List.map_map]
    refine List.mem_map.mpr ⟨seg, hseg, ?_⟩
    simp only [Function.comp_apply]
    by_cases h : seg.speaker = id
    · simp only [if_pos h]
      exact hsp
    · simp only [if_neg h]
      exact hsp
  | append_audio samples trim_to =>
    intro p hp
    have hmem := hs p (by simpa [applyOp, Session.append_audio] using hp)
    simpa [applyOp, Session.append_audio] using hmem
  | update_metadata title agenda =>
    intro p hp
    have hp' : p ∈ s.speaker_labels := by
      simp only [applyOp, Session.update_metadata] at hp
      cases title <;> cases agenda <;> simpa using hp
    have hmem := hs p hp'
    simp only [applyOp, Session.update_metadata]
    cases title <;> cases agenda <;> simpa using hmem
  | process_buffer threshold min_run diarized clear =>
    intro p hp
    by_cases hdet : detect_speech s.audio_buffer threshold min_run = []
    · have heq : applyOp s
          (SessionOp.process_buffer threshold min_run diarized clear) = s := by
        simp [applyOp, hdet]
      rw [heq] at hp ⊢
      exact hs p hp
    · have hseg2 : (applyOp s
          (SessionOp.process_buffer threshold min_run diarized clear)).segments =
          s.segments ++ diarized.map (fun d =>
            ({ speaker := d.speaker, text := d.text } : DiarizedSegment)) := by
        cases clear <;>
          simp [applyOp, hdet, Session.append_segments, Session.clear_audio]
      have hlab2 : (applyOp s
          (SessionOp.process_buffer threshold min_run diarized clear)).speaker_labels =
          s.speaker_labels := by
        cases clear <;>
          simp [applyOp, hdet, Session.append_segments, Session.clear_audio]
      rw [hlab2] at hp
      rw [hseg2, List.map_append]
      exact List.mem_append_left _ (hs p hp)
  | restore_from e =>
    intro p hp
    simp only [applyOp, restoreSession, buildRestoredLabels] at hp
    rcases mem_buildLabels_go _ _ hp with h | h
    · simpa [applyOp, restoreSession, List.map_map] using h
    · cases h

/-- C5 (amended): the subset invariant — speaker_labels keys all appear
among the segments' speakers — holds in every session reachable from
creation when each label_speaker call targets a speaker already present
in the timeline (other operations unrestricted). -/
theorem speaker_label_invariant_guarded (s : Session)
    (h : ReachableGuarded s) : labelsConsistent s := by
  induction h with
  | created sid lang now =>
    intro p hp
    simp [Session.create] at hp
  | step s' op hr hg ih => exact labelsConsistent_step s' op ih hg

/-- C5 counterexample: labelling speaker X on a freshly created session —
a reachable two-step sequence — yields a session whose speaker_labels
contain X although no segment mentions X, breaking the invariant as
claimed for unrestricted operation sequences. -/
theorem speaker_label_invariant_cex :
    ReachableAny
      (applyOp (Session.create "s1" "fa" 0)
        (SessionOp.label_speaker "X" "Ali")) ∧
    ¬ labelsConsistent
      (applyOp (Session.create "s1" "fa" 0)
        (SessionOp.label_speaker "X" "Ali")) :=
  ⟨ReachableAny.step _ _ (ReachableAny.created "s1" "fa" 0), by decide⟩

/-- C5 witness: a guarded reachable session — append a segment by X, then
label X — satisfies the invariant. -/
theorem speaker_label_invariant_witness :
    labelsConsistent
      (applyOp
        (applyOp (Session.create "s2" "fa" 0)
          (SessionOp.append_segments [{ speaker := "X", text := "hi" }]))
        (SessionOp.label_speaker "X" "Ali")) :=
  speaker_label_invariant_guarded _
    (ReachableGuarded.step _ _
      (ReachableGuarded.step _ _ (ReachableGuarded.created "s2" "fa" 0)
        trivial)
      (by decide))

/-! ### Claim theorems: VAD correctness -/

theorem detectLoop_stop_none {active : Nat → Bool} {n min_run i run_length : Nat}
    (h : ¬ i < n) :
    detectLoop active n min_run i none run_length = [] := by
  rw [detectLoop]
  simp [h]

theorem detectLoop_stop_some {active : Nat → Bool} {n min_run i run_length st : Nat}
    (h : ¬ i < n) :
    detectLoop active n min_run i (some st) run_length =
      if min_run ≤ run_length then [⟨st, n - 1⟩] else [] := by
  rw [detectLoop]
  simp [h]

theorem detectLoop_act_none {active : Nat → Bool} {n min_run i run_length : Nat}
    (h : i < n) (ha : active i) :
    detectLoop active n min_run i none run_length =
      detectLoop active n min_run (i + 1) (some i) (run_length + 1) := by
  conv_lhs => rw [detectLoop]
  simp [h, ha, Option.getD]

theorem detectLoop_act_some {active : Nat → Bool} {n min_run i run_length st : Nat}
    (h : i < n) (ha : active i) :
    detectLoop active n min_run i (some st) run_length =
      detectLoop active n min_run (i + 1) (some st) (run_length + 1) := by
  conv_lhs => rw [detectLoop]
  simp [h, ha, Option.getD]

theorem detectLoop_inact_none {active : Nat → Bool} {n min_run i run_length : Nat}
    (h : i < n) (ha : ¬ active i) :
    detectLoop active n min_run i none run_length =
      detectLoop active n min_run (i + 1) none 0 := by
  conv_lhs => rw [detectLoop]
  simp [h, ha]

theorem detectLoop_inact_some {active : Nat → Bool} {n min_run i run_length st : Nat}
    (h : i < n) (ha : ¬ active i) :
    detectLoop active n min_run i (some st) run_length =
      (if min_run ≤ run_length then [⟨st, i - 1⟩] else []) ++
        detectLoop active n min_run (i + 1) none 0 := by
  conv_lhs => rw [detectLoop]
  simp [h, ha]

theorem runsFrom_stop {active : Nat → Bool} {n i : Nat} (h : ¬ i < n) :
    runsFrom active n i = [] := by
  rw [runsFrom]
  simp [h]

theorem runsFrom_act {active : Nat → Bool} {n i : Nat} (h : i < n)
    (ha : active i) :
    runsFrom active n i =
      ⟨i, runEnd active n i⟩ :: runsFrom active n (runEnd active n i + 1) := by
  conv_lhs => rw [runsFrom]
  simp [h, ha]

theorem runsFrom_inact {active : Nat → Bool} {n i : Nat} (h : i < n)
    (ha : ¬ active i) :
    runsFrom active n i = runsFrom active n (i + 1) := by
  conv_lhs => rw [runsFrom]
  simp [h, ha]

theorem keepLong_nil (min_run : Nat) : keepLong min_run [] = [] := rfl

theorem keepLong_cons (min_run : Nat) (sp : SpeechSpan) (l : List SpeechSpan) :
    keepLong min_run (sp :: l) =
      (if min_run ≤ sp.end_index + 1 - sp.start_index then [sp] else []) ++
        keepLong min_run l := by
  by_cases h : min_run ≤ sp.end_index + 1 - sp.start_index <;>
    simp [keepLong, h]

theorem runEnd_lt (active : Nat → Bool) (n : Nat) :
    ∀ i, i < n → runEnd active n i < n := by
  have key : ∀ d i, n - i ≤ d → i < n → runEnd active n i < n := by
    intro d
    induction d with
    | zero =>
      intro i hd hin
      omega
    | succ d ih =>
      intro i hd hin
      by_cases h : i + 1 < n
      · by_cases ha : active (i + 1)
        · rw [runEnd_cont h ha]
          exact ih (i + 1) (by omega) h
        · rw [runEnd_break h ha]
          exact hin
      · rw [runEnd_stop h]
        exact hin
  intro i hin
  exact key (n - i) i le_rfl hin

theorem runEnd_all_active (active : Nat → Bool) (n : Nat) :
    ∀ i, active i = true →
      ∀ j, i ≤ j → j ≤ runEnd active n i → active j = true := by
  have key : ∀ d i, n - i ≤ d → active i = true →
      ∀ j, i ≤ j → j ≤ runEnd active n i → active j = true := by
    intro d
    induction d with
    | zero =>
      intro i hd hai j hij hjr
      rw [runEnd_stop (by omega)] at hjr
      have hji : j = i := by omega
      subst hji
      exact hai
    | succ d ih =>
      intro i hd hai j hij hjr
      by_cases h : i + 1 < n
      · by_cases ha2 : active (i + 1)
        · rw [runEnd_cont h ha2] at hjr
          by_cases hji : j = i
          · subst hji; exact hai
          · exact ih (i + 1) (by omega) ha2 j (by omega) hjr
        · rw [runEnd_break h ha2] at hjr
          have hji : j = i := by omega
          subst hji
          exact hai
      · rw [runEnd_stop h] at hjr
        have hji : j = i := by omega
        subst hji
        exact hai
  intro i hai j hij hjr
  exact key (n - i) i le_rfl hai j hij hjr

theorem runEnd_next (active : Nat → Bool) (n : Nat) :
    ∀ i, i < n →
      runEnd active n i + 1 = n ∨ active (runEnd active n i + 1) = false := by
  have key : ∀ d i, n - i ≤ d → i < n →
      runEnd active n i + 1 = n ∨ active (runEnd active n i + 1) = false := by
    intro d
    induction d with
    | zero =>
      intro i hd hin
      omega
    | succ d ih =>
      intro i hd hin
      by_cases h : i + 1 < n
      · by_cases ha : active (i + 1)
        · rw [runEnd_cont h ha]
          exact ih (i + 1) (by omega) h
        · rw [runEnd_break h ha]
          exact Or.inr (by simpa using ha)
      · rw [runEnd_stop h]
        exact Or.inl (by omega)
  intro i hin
  exact key (n - i) i le_rfl hin

theorem runEnd_at_end (active : Nat → Bool) {n e : Nat} (hen : e < n)
    (hmax : e + 1 = n ∨ active (e + 1) = false) : runEnd active n e = e := by
  rcases hmax with h | h
  · exact runEnd_stop (by omega)
  · by_cases h2 : e + 1 < n
    · exact runEnd_break h2 (by simp [h])
    · exact runEnd_stop h2

theorem runEnd_eq_of_run (active : Nat → Bool) {n s e : Nat} (hen : e < n)
    (hall : ∀ j, s ≤ j → j ≤ e → active j = true)
    (hmax : e + 1 = n ∨ active (e + 1) = false) :
    ∀ i, s ≤ i → i ≤ e → runEnd active n i = e := by
  have key : ∀ d i, e - i ≤ d → s ≤ i → i ≤ e → runEnd active n i = e := by
    intro d
    induction d with
    | zero =>
      intro i hd hsi hie
      have hieq : i = e := by omega
      subst hieq
      exact runEnd_at_end active hen hmax
    | succ d ih =>
      intro i hd hsi hie
      by_cases hieq : i = e
      · subst hieq
        exact runEnd_at_end active hen hmax
      · have h2 : i + 1 < n := by omega
        have ha2 : active (i + 1) = true := hall (i + 1) (by omega) (by omega)
        rw [runEnd_cont h2 ha2]
        exact ih (i + 1) (by omega) (by omega) (by omega)
  intro i hsi hie
  exact key (e - i) i le_rfl hsi hie

theorem detectLoop_runs_top (active : Nat → Bool) (n min_run : Nat) :
    (detectLoop active n min_run n none 0 =
      keepLong min_run (runsFrom active n n)) ∧
    (∀ s, s < n →
      detectLoop active n min_run n (some s) (n - s) =
        keepLong min_run
          (if n < n ∧ active n then
            ⟨s, runEnd active n n⟩ :: runsFrom active n (runEnd active n n + 1)
          else ⟨s, n - 1⟩ :: runsFrom active n n)) := by
  constructor
  · rw [detectLoop_stop_none (lt_irrefl n), runsFrom_stop (lt_irrefl n)]
    rfl
  · intro s hs
    have hcond : ¬ (n < n ∧ active n = true) := fun hc => lt_irrefl n hc.1
    rw [detectLoop_stop_some (lt_irrefl n), if_neg hcond,
      runsFrom_stop (lt_irrefl n), keepLong_cons, keepLong_nil]
    have harith : n - 1 + 1 - s = n - s := by omega
    simp only [harith]
    by_cases hc : min_run ≤ n - s <;> simp [hc]

theorem detectLoop_runs (active : Nat → Bool) (n min_run : Nat) :
    ∀ d i, n - i ≤ d → i ≤ n →
      (detectLoop active n min_run i none 0 =
        keepLong min_run (runsFrom active n i)) ∧
      (∀ s, s < i →
        detectLoop active n min_run i (some s) (i - s) =
          keepLong min_run
            (if i < n ∧ active i then
              ⟨s, runEnd active n i⟩ ::
                runsFrom active n (runEnd active n i + 1)
            else ⟨s, i - 1⟩ :: runsFrom active n i)) := by
  intro d
  induction d with
  | zero =>
    intro i hd hin
    have hieq : i = n := by omega
    rw [hieq]
    exact detectLoop_runs_top active n min_run
  | succ d ih =>
    intro i hd hin
    by_cases hn : i < n
    · constructor
      · by_cases ha : active i
        · rw [detectLoop_act_none hn ha,
            show (0 : Nat) + 1 = (i + 1) - i from by omega,
            (ih (i + 1) (by omega) (by omega)).2 i (by omega),
            runsFrom_act hn ha]
          by_cases hcnt : i + 1 < n ∧ active (i + 1)
          · rw [if_pos hcnt, runEnd_cont hcnt.1 hcnt.2]
          · rw [if_neg hcnt]
            have hre : runEnd active n i = i := by
              by_cases h2 : i + 1 < n
              · exact runEnd_break h2 (fun hh => hcnt ⟨h2, hh⟩)
              · exact runEnd_stop h2
            rw [hre]
            simp
        · rw [detectLoop_inact_none hn ha, runsFrom_inact hn ha]
          exact (ih (i + 1) (by omega) (by omega)).1
      · intro s hs
        by_cases ha : active i
        · have hcond : i < n ∧ active i = true := ⟨hn, ha⟩
          rw [detectLoop_act_some hn ha,
            show i - s + 1 = (i + 1) - s from by omega,
            (ih (i + 1) (by omega) (by omega)).2 s (by omega),
            if_pos hcond]
          by_cases hcnt : i + 1 < n ∧ active (i + 1)
          · rw [if_pos hcnt, runEnd_cont hcnt.1 hcnt.2]
          · rw [if_neg hcnt]
            have hre : runEnd active n i = i := by
              by_cases h2 : i + 1 < n
              · exact runEnd_break h2 (fun hh => hcnt ⟨h2, hh⟩)
              · exact runEnd_stop h2
            rw [hre]
            simp
        · have hcond2 : ¬ (i < n ∧ active i = true) := fun hc => ha hc.2
          rw [detectLoop_inact_some hn ha, if_neg hcond2,
            runsFrom_inact hn ha, keepLong_cons,
            (ih (i + 1) (by omega) (by omega)).1,
            show i - 1 + 1 - s = i - s from by omega]
    · have hieq : i = n := by omega
      rw [hieq]
      exact detectLoop_runs_top active n min_run

theorem runsFrom_sound (active : Nat → Bool) (n : Nat) :
    ∀ d i, n - i ≤ d → ∀ sp ∈ runsFrom active n i,
      i ≤ sp.start_index ∧ sp.start_index ≤ sp.end_index ∧
      sp.end_index < n ∧
      (∀ j, sp.start_index ≤ j → j ≤ sp.end_index → active j = true) ∧
      (sp.start_index = i ∨ active (sp.start_index - 1) = false) ∧
      (sp.end_index + 1 = n ∨ active (sp.end_index + 1) = false) := by
  intro d
  induction d with
  | zero =>
    intro i hd sp hsp
    rw [runsFrom_stop (by omega)] at hsp
    cases hsp
  | succ d ih =>
    intro i hd sp hsp
    by_cases hn : i < n
    · by_cases ha : active i
      · rw [runsFrom_act hn ha] at hsp
        rcases List.mem_cons.mp hsp with rfl | hsp
        · exact ⟨le_refl i, runEnd_ge active n i, runEnd_lt active n i hn,
            runEnd_all_active active n i ha, Or.inl rfl,
            runEnd_next active n i hn⟩
        · obtain ⟨h1, h2, h3, h4, h5, h6⟩ :=
            ih (runEnd active n i + 1)
              (by have := runEnd_ge active n i; omega) sp hsp
          refine ⟨by have := runEnd_ge active n i; omega, h2, h3, h4, ?_, h6⟩
          rcases h5 with h5 | h5
          · exfalso
            have hact : active sp.start_index = true := h4 _ le_rfl h2
            rcases runEnd_next active n i hn with hh | hh
            · omega
            · rw [h5] at hact
              rw [hact] at hh
              exact Bool.noConfusion hh
          · exact Or.inr h5
      · rw [runsFrom_inact hn ha] at hsp
        obtain ⟨h1, h2, h3, h4, h5, h6⟩ := ih (i + 1) (by omega) sp hsp
        refine ⟨by omega, h2, h3, h4, ?_, h6⟩
        rcases h5 with h5 | h5
        · right
          rw [h5]
          simpa using ha
        · exact Or.inr h5
    · rw [runsFrom_stop hn] at hsp
      cases hsp

theorem runsFrom_complete (active : Nat → Bool) (n : Nat) :
    ∀ d i, n - i ≤ d → ∀ s e, i ≤ s → IsMaxRun active n s e →
      (⟨s, e⟩ : SpeechSpan) ∈ runsFrom active n i := by
  intro d
  induction d with
  | zero =>
    intro i hd s e his hrun
    obtain ⟨hse, hen, hall, hleft, hright⟩ := hrun
    omega
  | succ d ih =>
    intro i hd s e his hrun
    obtain ⟨hse, hen, hall, hleft, hright⟩ := hrun
    have hin : i < n := by omega
    by_cases heq : i = s
    · subst heq
      have hai : active i = true := hall i le_rfl hse
      rw [runsFrom_act hin hai,
        runEnd_eq_of_run active hen hall hright i le_rfl hse]
      exact List.mem_cons_self _ _
    · by_cases ha : active i
      · rw [runsFrom_act hin ha]
        refine List.mem_cons_of_mem _
          (ih (runEnd active n i + 1)
            (by have := runEnd_ge active n i; omega) s e ?_
            ⟨hse, hen, hall, hleft, hright⟩)
        by_contra hcon
        push_neg at hcon
        have hs1 : active (s - 1) = true :=
          runEnd_all_active active n i ha (s - 1) (by omega) (by omega)
        rcases hleft with h0 | hfa
        · omega
        · rw [hfa] at hs1
          exact Bool.noConfusion hs1
      · rw [runsFrom_inact hin ha]
        exact ih (i + 1) (by omega) s e (by omega)
          ⟨hse, hen, hall, hleft, hright⟩

theorem runsFrom_pairwise (active : Nat → Bool) (n : Nat) :
    ∀ d i, n - i ≤ d →
      (runsFrom active n i).Pairwise
        (fun a b => a.end_index < b.start_index) := by
  intro d
  induction d with
  | zero =>
    intro i hd
    rw [runsFrom_stop (by omega)]
    exact List.Pairwise.nil
  | succ d ih =>
    intro i hd
    by_cases hn : i < n
    · by_cases ha : active i
      · rw [runsFrom_act hn ha]
        refine List.pairwise_cons.mpr
          ⟨?_, ih (runEnd active n i + 1)
            (by have := runEnd_ge active n i; omega)⟩
        intro sp hsp
        have hge := (runsFrom_sound active n (n - (runEnd active n i + 1))
          (runEnd active n i + 1) le_rfl sp hsp).1
        show runEnd active n i < sp.start_index
        omega
      · rw [runsFrom_inact hn ha]
        exact ih (i + 1) (by omega)
    · rw [runsFrom_stop hn]
      exact List.Pairwise.nil

/-- C3: for every sample sequence, threshold and min_run at least 1,
detect_speech returns exactly the maximal runs of threshold-active
samples of length at least min_run: every returned span is a maximal
active run of length at least min_run, the spans are disjoint with
strictly increasing indices (each span ends before the next begins), and
every maximal active run of length at least min_run is returned. -/
theorem vad_detect_speech_correct (samples : List ℚ) (threshold : ℚ)
    (min_run : Nat) (hmin : 1 ≤ min_run) :
    (∀ sp ∈ detect_speech samples threshold min_run,
      min_run ≤ sp.end_index + 1 - sp.start_index ∧
      IsMaxRun (fun i => decide (threshold ≤ |samples.getD i 0|))
        samples.length sp.start_index sp.end_index) ∧
    List.Pairwise (fun a b => a.end_index < b.start_index)
      (detect_speech samples threshold min_run) ∧
    (∀ s e,
      IsMaxRun (fun i => decide (threshold ≤ |samples.getD i 0|))
        samples.length s e →
      min_run ≤ e + 1 - s →
      (⟨s, e⟩ : SpeechSpan) ∈ detect_speech samples threshold min_run) := by
  have hdet : detect_speech samples threshold min_run =
      keepLong min_run
        (runsFrom (fun i => decide (threshold ≤ |samples.getD i 0|))
          samples.length 0) :=
    (detectLoop_runs (fun i => decide (threshold ≤ |samples.getD i 0|))
      samples.length min_run samples.length 0 (by omega) (by omega)).1
  refine ⟨?_, ?_, ?_⟩
  · intro sp hsp
    rw [hdet] at hsp
    simp only [keepLong] at hsp
    have hmem := List.mem_filter.mp hsp
    obtain ⟨h1, h2, h3, h4, h5, h6⟩ :=
      runsFrom_sound _ samples.length samples.length 0 (by omega) sp hmem.1
    exact ⟨by simpa using hmem.2, h2, h3, h4, h5, h6⟩
  · rw [hdet]
    simp only [keepLong]
    exact List.Pairwise.filter _
      (runsFrom_pairwise _ samples.length samples.length 0 (by omega))
  · intro s e hrun hlen
    rw [hdet]
    simp only [keepLong]
    refine List.mem_filter.mpr ⟨?_, by simpa using hlen⟩
    exact runsFrom_complete _ samples.length samples.length 0 (by omega)
      s e (by omega) hrun

/-- C3 witness: the correctness bundle at samples [0, 1, 1, 0, 1] with
threshold 1 and min_run 2 (one maximal run of length 2, one of length 1). -/
theorem vad_detect_speech_correct_witness :
    1 ≤ 2 ∧
    ((∀ sp ∈ detect_speech [0, 1, 1, 0, 1] 1 2,
      2 ≤ sp.end_index + 1 - sp.start_index ∧
      IsMaxRun (fun i => decide ((1 : ℚ) ≤ |List.getD [0, 1, 1, 0, 1] i 0|))
        (List.length ([0, 1, 1, 0, 1] : List ℚ))
        sp.start_index sp.end_index) ∧
    List.Pairwise (fun a b => a.end_index < b.start_index)
      (detect_speech [0, 1, 1, 0, 1] 1 2) ∧
    (∀ s e,
      IsMaxRun (fun i => decide ((1 : ℚ) ≤ |List.getD [0, 1, 1, 0, 1] i 0|))
        (List.length ([0, 1, 1, 0, 1] : List ℚ)) s e →
      2 ≤ e + 1 - s →
      (⟨s, e⟩ : SpeechSpan) ∈ detect_speech [0, 1, 1, 0, 1] 1 2)) :=
  ⟨by decide, vad_detect_speech_correct [0, 1, 1, 0, 1] 1 2 (by decide)⟩

end DabirJalase
